import Mathlib

/-
Verification of the chunked parallel S3 downloader (src/s3/download.go).

The Go code is embedded shallowly:
  * the chunk-partition loop of Open, the Content-Length parse, `min64`,
    `chunk.Read`, `chunk.Download` and the `WriteTo` loop become executable
    Lean functions;
  * the concurrent system (feeder goroutine over the unbuffered `d.chunks`
    channel, `concurrency` worker goroutines, the buffered `d.readAhead`
    channel of capacity `concurrency`, `sync.Once`, and the sequential
    consumer driving `io.MultiReader` over the chunks) becomes a small-step
    transition system `step` over a state `St`; every interleaving of the
    goroutines is a trace of this system;
  * the external collaborators (the retrying fetcher, the HTTP server) are
    inputs: an environment `env : Nat -> Resp` fixes, per chunk index, what
    the range request for that chunk delivers, and a `ProbeResp` fixes what
    the HEAD probe delivers.
-/

namespace S3

/-- Bytes of HTTP bodies are modelled as natural numbers. -/

abbrev Byte := Nat

/-- Response headers are modelled as an association list. -/

abbrev Headers := List (String × String)

/-- min64 from src/s3/download.go lines 188-193. -/

def min64 (a b : Int) : Int := if a < b then a else b

/-- The chunk-creation loop of Open (src/s3/download.go lines 112-127), recorded
as (start, size) pairs; the Range header of the chunk (i, sz) is
bytes=i-(i+sz-1).  Each iteration computes the size as min64 S L -- S being the
minPartSize constant and L the parsed Content-Length, exactly as the Go line
`size := min64(minPartSize, s)` does -- and then advances i by that size.  The
fuel argument only bounds the recursion depth: L.toNat + 1 iterations are enough
whenever 1 <= S (and for S <= 0 < L the Go loop itself would never terminate, a
case no claim is about). -/

def buildRangesAux (S L : Int) : Nat → Int → List (Int × Int)
  | 0, _ => []
  | fuel + 1, i =>
    if i < L then (i, min64 S L) :: buildRangesAux S L fuel (i + min64 S L) else []

/-- The list of chunk byte ranges Open builds for max part size S and object
length L (src/s3/download.go lines 112-127). -/

def buildRanges (S L : Int) : List (Int × Int) := buildRangesAux S L (L.toNat + 1) 0

/-- strconv.ParseInt(value, 10, 64), as applied to the Content-Length header in
Open (src/s3/download.go line 101): an optional sign followed by at least one
decimal digit, with the resulting value required to fit in a signed 64-bit
integer.  Negative inputs such as "-5" parse successfully. -/

def parseInt64 (s : String) : Option Int :=
  match s.data with
  | [] => none
  | c :: cs =>
    match (if c = '-' then (true, cs) else if c = '+' then (false, cs) else (false, c :: cs) : Bool × List Char) with
    | (neg, ds) =>
      if ds.isEmpty then none
      else if ds.all (fun d => d.isDigit) then
        let v : Nat := ds.foldl (fun a d => a * 10 + (d.toNat - 48)) 0
        let iv : Int := if neg then -(v : Int) else (v : Int)
        if -9223372036854775808 ≤ iv ∧ iv ≤ 9223372036854775807 then some iv else none
      else none

/-- Errors surfaced by the download path.  The `response` constructor models
newResponseError, which is declared in a repository file outside src/.
Modelled from the spec: "an error type carrying the HTTP status code and
response body for non-2xx responses". -/

inductive DErr where
  | transport
  | response (status : Nat) (body : List Byte)
  | bodyRead
deriving DecidableEq

/-- Outcome of the HEAD metadata probe as delivered by the retrying fetcher (an
external collaborator per the spec): either a transport error after retries, or
a response carrying status, body, the Content-Length header value, and the
remaining headers. -/

inductive ProbeResp where
  | fail
  | resp (status : Nat) (body : List Byte) (contentLength : String) (headers : Headers)
deriving DecidableEq

/-- Errors Open can return (src/s3/download.go lines 92-104). -/

inductive OpenErr where
  | transport
  | status (code : Nat) (body : List Byte)
  | parseLen
deriving DecidableEq

/-- The probe-and-partition phase of Open (src/s3/download.go lines 88-127):
a non-200 probe status fails with the response error before any chunk is
created; an unparsable Content-Length fails with the parse error; otherwise the
chunk ranges and the probe response's headers are returned. -/

def openRun (S : Int) (pr : ProbeResp) : Except OpenErr (List (Int × Int) × Headers) :=
  match pr with
  | .fail => .error .transport
  | .resp st body cl hdrs =>
    if st ≠ 200 then .error (.status st body)
    else
      match parseInt64 cl with
      | none => .error .parseLen
      | some L => .ok (buildRanges S L, hdrs)

/-- Runtime state of one chunk (the mutable fields of the `chunk` struct,
src/s3/download.go lines 13-22): whether `done` has been closed, the private
buffer (`none` models `c.buf = nil` after consumption), and the `err` field --
which no statement of the program ever assigns. -/

structure CSt where
  done : Bool
  buf : Option (List Byte)
  cerr : Option DErr
deriving DecidableEq

/-- A freshly created chunk: done not fired, empty buffer, nil error. -/

def CSt.start : CSt := ⟨false, some [], none⟩

/-- Result of one call to chunk.Read. -/

inductive CRead where
  | blocked
  | failed (e : DErr)
  | bytes (bs : List Byte)
  | eof
  | panicked
deriving DecidableEq

/-- chunk.Read embedded (src/s3/download.go lines 24-38).  `plen` is len(p).
Returns the call's result, the chunk state afterwards, and whether a value was
sent on the readAhead channel.  The call blocks until done has fired; it then
returns the stored error if non-nil; otherwise it reads from the buffer: a
drained buffer yields io.EOF after sending on readAhead and setting the buffer
to nil, and a nil buffer means `c.buf.Read(p)` dereferences a nil
*bytes.Buffer, a runtime panic. -/

def chunkRead (c : CSt) (plen : Nat) : CRead × CSt × Bool :=
  if c.done = false then (.blocked, c, false)
  else
    match c.cerr with
    | some e => (.failed e, c, false)
    | none =>
      match c.buf with
      | none => (.panicked, c, false)
      | some [] =>
        if plen = 0 then (.bytes [], c, false)
        else (.eof, { c with buf := none }, true)
      | some (b :: bs) =>
        if min plen (b :: bs).length = 0 then (.bytes [], c, false)
        else (.bytes ((b :: bs).take (min plen (b :: bs).length)),
          { c with buf := some ((b :: bs).drop (min plen (b :: bs).length)) }, false)

/-- What the retrying fetcher delivers for one chunk's range request: a
transport error after exhausting retries, or a response with a status code, the
bytes that reading its body yields, and whether that body read succeeds
(`bodyOk = false` means `c.buf.ReadFrom(resp.Body)` fails after reading the
given bytes). -/

inductive Resp where
  | err
  | resp (status : Nat) (body : List Byte) (bodyOk : Bool)
deriving DecidableEq

/-- chunk.Download embedded (src/s3/download.go lines 40-64): the error the
method returns, paired with the bytes appended to the chunk's buffer.  A
transport error returns before touching the buffer; a non-206 status returns
newResponseError without touching the buffer; a failing body read leaves the
partially read bytes in the buffer; success leaves the full body.  The
`defer close(c.done)` is part of the transition system step that invokes this
function: done fires on every one of these paths. -/

def downloadRun : Resp → Option DErr × List Byte
  | .err => (some .transport, [])
  | .resp st body bodyOk =>
    if st ≠ 206 then (some (.response st body), [])
    else if bodyOk then (none, body)
    else (some .bodyRead, body)

/-- Errors of the io.Reader interface as seen by WriteTo: io.EOF or a real
failure. -/

inductive IoErr where
  | eof
  | fail (e : DErr)
deriving DecidableEq

/-- The loop of downloader.WriteTo (src/s3/download.go lines 157-170), run for
at most `fuel` iterations.  `read i` gives the result of the i-th `d.Read(buf)`
call and `write m` the result of `w.Write(buf[:m])`.  Each iteration mirrors
the body: a read error other than io.EOF returns; then the write runs, its
byte count is added to n, and the loop returns only when the write's error is
non-nil (`err == io.EOF` in that second test is subsumed by `err != nil`).
`none` means the loop was still running when the fuel ran out. -/

def writeToRun (read : Nat → Nat × Option IoErr) (write : Nat → Nat × Option IoErr) :
    Nat → Nat → Int → Option (Int × Option IoErr)
  | 0, _, _ => none
  | fuel + 1, i, n =>
    match read i with
    | (m, e) =>
      if e ≠ none ∧ e ≠ some .eof then some (n, e)
      else
        match write m with
        | (m2, e2) =>
          let n2 : Int := n + (m2 : Int)
          if e2 ≠ none ∨ e2 = some .eof then some (n2, e2)
          else writeToRun read write fuel (i + 1) n2

/-- The reader a fully drained downloader presents: every d.Read call returns
(0, io.EOF), since d.err is nil and the io.MultiReader over the chunks is
exhausted. -/

def exhaustedRead : Nat → Nat × Option IoErr := fun _ => (0, some .eof)

/-- State of one worker goroutine running downloader.download
(src/s3/download.go lines 179-186): blocked receiving on d.chunks; running
chunk i's Download; about to execute `d.err = err` after a failed Download
(close(c.done) has already run, by defer, when Download returned); blocked
receiving on d.readAhead; or having left the range loop -- which the range
statement permits only once the channel is closed and drained. -/

inductive WSt where
  | waiting
  | downloading (i : Nat)
  | recording (i : Nat) (e : DErr)
  | waitToken
  | exited
deriving DecidableEq

/-- Whether a worker currently holds a claimed chunk: it is either downloading
it, recording its error, or holding its finished buffer while blocked on the
readAhead receive that ends the loop iteration. -/

def WSt.isBusy : WSt → Bool
  | .downloading _ => true
  | .recording _ _ => true
  | .waitToken => true
  | _ => false

/-- Position of the consumer inside downloader.Read: between calls, or inside
d.r.Read after having passed the d.err check and the once.Do. -/

inductive RSt where
  | idle
  | reading
deriving DecidableEq

/-- Global state of one download: the composition of the feeder goroutine, the
two channels, the sync.Once, the worker pool, the chunk array and the
sequential consumer. -/

structure St where
  /-- How many chunks the feeder goroutine has handed out over the unbuffered
  d.chunks channel (src/s3/download.go lines 135-139); a receive is a
  rendezvous with the blocked sender. -/
  feeder : Nat
  /-- Whether d.chunks has been closed.  No statement of the program closes
  it, so no transition sets this. -/
  closed : Bool
  /-- Values currently buffered in d.readAhead (capacity: the concurrency
  constant). -/
  tokens : Nat
  /-- Total sends into d.readAhead, i.e. chunks the consumer has fully
  drained. -/
  produced : Nat
  /-- d.err. -/
  derr : Option DErr
  /-- Whether d.once has fired. -/
  started : Bool
  /-- Total worker goroutines ever started. -/
  spawned : Nat
  /-- The worker pool; indices at and above the concurrency constant are
  unused and stay waiting. -/
  ws : Nat → WSt
  /-- The chunk array, by index. -/
  cs : Nat → CSt
  /-- How many times close(c.done) has run on chunk i (a second close would
  panic). -/
  closes : Nat → Nat
  /-- The io.MultiReader position: index of the chunk the consumer reads
  next. -/
  cursor : Nat
  /-- All bytes d.Read has returned to the caller so far. -/
  acc : List Byte
  /-- The last non-nil error d.Read returned to the caller. -/
  rerr : Option DErr
  /-- Whether d.Read has returned (0, io.EOF). -/
  atEOF : Bool
  /-- Consumer position. -/
  rst : RSt

/-- The state right after Open returns: chunks created, channels empty, pool
not started. -/

def St.start : St where
  feeder := 0
  closed := false
  tokens := 0
  produced := 0
  derr := none
  started := false
  spawned := 0
  ws := fun _ => .waiting
  cs := fun _ => CSt.start
  closes := fun _ => 0
  cursor := 0
  acc := []
  rerr := none
  atEOF := false
  rst := .idle

/-- Pointwise update of a map. -/

def upd {α : Type} (f : Nat → α) (i : Nat) (v : α) : Nat → α :=
  fun j => if j = i then v else f j

/-- Scheduler events: one atomic action of one goroutine.
  * readEnter: the consumer calls d.Read -- the d.err check, and on nil the
    once.Do (sync.Once makes the check-and-start atomic);
  * readChunk t: the consumer, inside io.MultiReader.Read with len(p) = t,
    performs one chunk.Read on the cursor chunk (advancing past an EOF chunk
    stays inside the same d.Read call, exactly as multiReader.Read loops);
  * claim w: worker w receives the next chunk from d.chunks;
  * finish w: worker w's c.Download() returns -- buffer written, the deferred
    close(c.done) runs; if Download returned an error the worker still has to
    execute `d.err = err`;
  * record w: worker w executes `d.err = err`;
  * take w: worker w receives from d.readAhead;
  * exit w: worker w leaves the range loop, which requires d.chunks to be
    closed and drained. -/

inductive Ev where
  | readEnter
  | readChunk (t : Nat)
  | claim (w : Nat)
  | finish (w : Nat)
  | record (w : Nat)
  | take (w : Nat)
  | exit (w : Nat)
deriving DecidableEq

/-- One small step of the download system with N chunks, concurrency k, and
range-request environment env.  `none` means the event's goroutine is blocked
(or the event does not apply) in state s. -/

def step (N k : Nat) (env : Nat → Resp) (s : St) : Ev → Option St
  | .readEnter =>
    if s.rst ≠ .idle then none
    else
      match s.derr with
      | some e => some { s with rerr := some e }
      | none =>
        some { s with
          started := true
          spawned := if s.started then s.spawned else s.spawned + k
          rst := .reading }
  | .readChunk t =>
    if s.rst ≠ .reading ∨ t = 0 then none
    else if s.cursor < N then
      match chunkRead (s.cs s.cursor) t with
      | (.blocked, _, _) => none
      | (.panicked, _, _) => none
      | (.failed e, c2, _) =>
        some { s with cs := upd s.cs s.cursor c2, rerr := some e, rst := .idle }
      | (.eof, c2, _) =>
        if s.tokens < k then
          some { s with
            cs := upd s.cs s.cursor c2
            tokens := s.tokens + 1
            produced := s.produced + 1
            cursor := s.cursor + 1 }
        else none
      | (.bytes bs, c2, _) =>
        some { s with cs := upd s.cs s.cursor c2, acc := s.acc ++ bs, rst := .idle }
    else some { s with atEOF := true, rst := .idle }
  | .claim w =>
    if s.started = true ∧ w < k ∧ s.ws w = .waiting ∧ s.feeder < N then
      some { s with feeder := s.feeder + 1, ws := upd s.ws w (.downloading s.feeder) }
    else none
  | .finish w =>
    if s.started = true ∧ w < k then
      match s.ws w with
      | .downloading i =>
        match (s.cs i).buf with
        | none => none
        | some bs =>
          some { s with
            cs := upd s.cs i ⟨true, some (bs ++ (downloadRun (env i)).2), (s.cs i).cerr⟩
            closes := upd s.closes i (s.closes i + 1)
            ws := upd s.ws w (match (downloadRun (env i)).1 with
              | some e2 => .recording i e2
              | none => .waitToken) }
      | _ => none
    else none
  | .record w =>
    if s.started = true ∧ w < k then
      match s.ws w with
      | .recording _ e => some { s with derr := some e, ws := upd s.ws w .waitToken }
      | _ => none
    else none
  | .take w =>
    if s.started = true ∧ w < k ∧ s.ws w = .waitToken ∧ 1 ≤ s.tokens then
      some { s with tokens := s.tokens - 1, ws := upd s.ws w .waiting }
    else none
  | .exit w =>
    if s.started = true ∧ w < k ∧ s.ws w = .waiting ∧ s.closed = true ∧ N ≤ s.feeder then
      some { s with ws := upd s.ws w .exited }
    else none

/-- Run a sequence of events from a state; `none` if some event is blocked. -/

def run (N k : Nat) (env : Nat → Resp) : St → List Ev → Option St
  | s, [] => some s
  | s, e :: es =>
    match step N k env s e with
    | some s2 => run N k env s2 es
    | none => none

/-- The states some interleaving of the goroutines can reach from St.start. -/

inductive Reach (N k : Nat) (env : Nat → Resp) : St → Prop where
  | start : Reach N k env St.start
  | next {s s2 : St} {e : Ev} : Reach N k env s → step N k env s e = some s2 → Reach N k env s2

/-- Concatenation of the first n chunk payloads in index order. -/

def joinUpTo (pay : Nat → List Byte) : Nat → List Byte
  | 0 => []
  | n + 1 => joinUpTo pay n ++ pay n

/-- Number of workers among the first n that currently hold a claimed chunk. -/

def countBusy (ws : Nat → WSt) : Nat → Nat
  | 0 => 0
  | n + 1 => countBusy ws n + (if (ws n).isBusy then 1 else 0)

/-- Structural invariant of the download system, independent of the
environment: the channel d.chunks is never closed and no worker ever leaves
its loop; the pool is spawned exactly when the once has fired; nothing at all
happens before the first Read; claimed chunks are balanced against readAhead
traffic; close(c.done) runs exactly once per downloaded chunk; each chunk is
claimed by at most one worker. -/

structure InvA (k : Nat) (s : St) : Prop where
  closedF : s.closed = false
  noExit : ∀ w, s.ws w ≠ .exited
  spawnOnce : s.spawned = if s.started then k else 0
  preFeeder : s.started = false → s.feeder = 0
  preWs : s.started = false → ∀ w, s.ws w = .waiting
  preCs : s.started = false → ∀ j, s.cs j = CSt.start
  preRst : s.started = false → s.rst = .idle
  highWs : ∀ w, k ≤ w → s.ws w = .waiting
  balance : s.feeder + s.tokens = s.produced + countBusy s.ws k
  closesDone : ∀ j, s.closes j = if (s.cs j).done then 1 else 0
  pendingBuf : ∀ j, (s.cs j).done = false → (s.cs j).buf = some []
  untouchedA : ∀ j, s.feeder ≤ j → (s.cs j).done = false
  dlBoundA : ∀ w i, s.ws w = .downloading i → i < s.feeder ∧ (s.cs i).done = false
  dlUniqueA : ∀ w w2 i, s.ws w = .downloading i → s.ws w2 = .downloading i → w = w2

/-- Reassembly invariant, for runs in which every chunk request succeeds with
its payload: the bytes handed to the consumer so far are exactly the payloads
of the chunks before the cursor plus a prefix of the cursor chunk's payload;
every downloaded chunk ahead of the cursor holds exactly its payload; drained
chunks sit behind the cursor with freed buffers. -/

structure InvB (N : Nat) (pay : Nat → List Byte) (s : St) : Prop where
  cursorLe : s.cursor ≤ N
  feederLe : s.feeder ≤ N
  derrNone : s.derr = none
  noRecord : ∀ w i e, s.ws w ≠ .recording i e
  cerrNone : ∀ j, (s.cs j).cerr = none
  below : ∀ j, j < s.cursor → (s.cs j).done = true ∧ (s.cs j).buf = none
  above : ∀ j, s.cursor < j → ((s.cs j).done = true → (s.cs j).buf = some (pay j)) ∧
    ((s.cs j).done = false → (s.cs j).buf = some [])
  atCurDone : s.cursor < N → (s.cs s.cursor).done = true →
    ∃ pre l, (s.cs s.cursor).buf = some l ∧ pay s.cursor = pre ++ l ∧
      s.acc = joinUpTo pay s.cursor ++ pre
  atCurPending : s.cursor < N → (s.cs s.cursor).done = false →
    (s.cs s.cursor).buf = some [] ∧ s.acc = joinUpTo pay s.cursor
  atEnd : s.cursor = N → s.acc = joinUpTo pay N
  eofCursor : s.atEOF = true → s.cursor = N
  untouchedB : ∀ j, s.feeder ≤ j → (s.cs j).done = false ∧ (s.cs j).buf = some []
  dlBoundB : ∀ w i, s.ws w = .downloading i → i < s.feeder ∧ (s.cs i).done = false
  dlUniqueB : ∀ w w2 i, s.ws w = .downloading i → s.ws w2 = .downloading i → w = w2

/-- Environment in which both chunk requests succeed: chunk 0 delivers byte 65
and chunk 1 delivers byte 66. -/

def envAB : Nat → Resp := fun i => Resp.resp 206 (if i = 0 then [65] else [66]) true

/-- The payloads matching envAB. -/

def payAB : Nat → List Byte := fun i => if i = 0 then [65] else [66]

/-- A complete schedule of the two-chunk system envAB with one worker: the
worker downloads chunk 0, the consumer drains it, the worker claims and
downloads chunk 1 after receiving the readAhead token, the consumer drains it
and reads end of stream. -/

def evsAB : List Ev :=
  [.readEnter, .claim 0, .finish 0, .readChunk 8, .readEnter, .readChunk 8,
   .take 0, .claim 0, .finish 0, .readChunk 8, .readEnter, .readChunk 8, .readChunk 8]

/-- The state the schedule evsAB reaches. -/

def sAB : St := (run 2 1 envAB St.start evsAB).getD St.start

/-- A prefix schedule stopping while the worker is still downloading chunk 0. -/

def evsC6 : List Ev := [.readEnter, .claim 0]

/-- The state evsC6 reaches: worker 0 is downloading chunk 0. -/

def sC6 : St := (run 2 1 envAB St.start evsC6).getD St.start

/-- A complete schedule of a one-chunk system: download, drain, end of stream,
worker receives its token and goes back to the queue. -/

def evsEnd : List Ev :=
  [.readEnter, .claim 0, .finish 0, .readChunk 8, .readEnter, .readChunk 8,
   .readChunk 8, .take 0]

/-- The state evsEnd reaches: all work done, worker 0 blocked on the receive
from the never-closed d.chunks channel. -/

def sEnd : St := (run 1 1 envAB St.start evsEnd).getD St.start

/-- Environment in which chunk 0's range request returns status 500 with an
empty body while chunk 1 succeeds with two bytes 66. -/

def envBad : Nat → Resp :=
  fun i => if i = 0 then Resp.resp 500 [] true else Resp.resp 206 [66, 66] true

/-- A legal schedule under envBad: both workers download their chunks; chunk
0's Download returns the status error and the deferred close fires, but the
worker is preempted before executing the assignment to d.err; the consumer
reads the stream (the failed chunk reads as instant end-of-data because
chunk.err was never assigned), obtaining chunk 1's bytes; then the worker
records d.err, and the next Read returns the error. -/

def evsBad : List Ev :=
  [.readEnter, .claim 0, .claim 1, .finish 0, .finish 1,
   .readChunk 16, .readChunk 16, .record 0, .readEnter]

/-- The state evsBad reaches. -/

def sBad : St := (run 2 2 envBad St.start evsBad).getD St.start

/-- A sink whose Write accepts everything, in particular Write of an empty
slice returns (0, nil). -/

def okWrite : Nat → Nat × Option IoErr := fun m => (m, none)

theorem upd_self {α : Type} (f : Nat → α) (i : Nat) (v : α) : upd f i v i = v := by
  simp [upd]

theorem upd_other {α : Type} (f : Nat → α) (i : Nat) (v : α) (j : Nat) (h : j ≠ i) :
    upd f i v j = f j := by
  simp [upd, h]

theorem run_reach (N k : Nat) (env : Nat → Resp) :
    ∀ (evs : List Ev) (s0 s : St), Reach N k env s0 → run N k env s0 evs = some s →
      Reach N k env s := by
  intro evs
  induction evs with
  | nil =>
    intro s0 s h0 hr
    simp only [run] at hr
    exact (Option.some_inj.mp hr) ▸ h0
  | cons e es ih =>
    intro s0 s h0 hr
    simp only [run] at hr
    cases hstep : step N k env s0 e with
    | none => rw [hstep] at hr; cases hr
    | some s1 =>
      rw [hstep] at hr
      exact ih s1 s (Reach.next h0 hstep) hr

theorem isSome_eq_some {α : Type} (o : Option α) (d : α) (h : o.isSome = true) :
    o = some (o.getD d) := by
  cases o with
  | none => cases h
  | some a => rfl

theorem countBusy_le (ws : Nat → WSt) : ∀ n, countBusy ws n ≤ n := by
  intro n
  induction n with
  | zero => exact Nat.le_refl 0
  | succ m ih =>
    simp only [countBusy]
    split
    · omega
    · omega

theorem countBusy_congr (ws ws2 : Nat → WSt) :
    ∀ n, (∀ j, j < n → ws j = ws2 j) → countBusy ws n = countBusy ws2 n := by
  intro n
  induction n with
  | zero => intro _; rfl
  | succ m ih =>
    intro h
    simp only [countBusy]
    rw [ih (fun j hj => h j (Nat.lt_succ_of_lt hj)), h m (Nat.lt_succ_self m)]

theorem countBusy_upd (ws : Nat → WSt) (w : Nat) (v : WSt) :
    ∀ n, w < n →
      (if (ws w).isBusy then 1 else 0) + countBusy (upd ws w v) n =
      (if v.isBusy then 1 else 0) + countBusy ws n := by
  intro n
  induction n with
  | zero => intro h; cases h
  | succ m ih =>
    intro h
    simp only [countBusy]
    rcases Nat.lt_succ_iff_lt_or_eq.mp h with h2 | h2
    · have hm : w ≠ m := Nat.ne_of_lt h2
      rw [upd_other ws w v m (Ne.symm hm)]
      have := ih h2
      omega
    · subst h2
      rw [upd_self]
      have : countBusy (upd ws w v) w = countBusy ws w :=
        countBusy_congr _ _ w (fun j hj => upd_other ws w v j (Nat.ne_of_lt hj))
      omega

theorem chunkRead_failed_inv {c : CSt} {t : Nat} {e : DErr} {c2 : CSt} {sent : Bool}
    (h : chunkRead c t = (.failed e, c2, sent)) :
    c.done = true ∧ c.cerr = some e ∧ c2 = c ∧ sent = false := by
  unfold chunkRead at h
  split at h
  · simp at h
  · rename_i hdone
    have hdone2 : c.done = true := by
      cases hb : c.done
      · exact absurd hb hdone
      · rfl
    split at h
    · rename_i e2 hcerr
      simp only [Prod.mk.injEq, CRead.failed.injEq] at h
      obtain ⟨he, hc2, hsent⟩ := h
      exact ⟨hdone2, he ▸ hcerr, hc2.symm, hsent.symm⟩
    · rename_i hcerr
      split at h
      · simp at h
      · split at h <;> simp at h
      · split at h <;> simp at h

theorem chunkRead_eof_inv {c : CSt} {t : Nat} {c2 : CSt} {sent : Bool}
    (h : chunkRead c t = (.eof, c2, sent)) :
    c.done = true ∧ c.cerr = none ∧ c.buf = some [] ∧
      c2 = ⟨c.done, none, c.cerr⟩ ∧ sent = true := by
  unfold chunkRead at h
  split at h
  · simp at h
  · rename_i hdone
    have hdone2 : c.done = true := by
      cases hb : c.done
      · exact absurd hb hdone
      · rfl
    split at h
    · simp at h
    · rename_i hcerr
      split at h
      · simp at h
      · rename_i hbuf
        split at h
        · simp at h
        · simp only [Prod.mk.injEq] at h
          obtain ⟨_, hc2, hsent⟩ := h
          exact ⟨hdone2, hcerr, hbuf, by rw [← hc2], hsent.symm⟩
      · split at h <;> simp at h

theorem chunkRead_bytes_inv {c : CSt} {t : Nat} {bs : List Byte} {c2 : CSt} {sent : Bool}
    (h : chunkRead c t = (.bytes bs, c2, sent)) :
    c.done = true ∧ c.cerr = none ∧ sent = false ∧
      ∃ l, c.buf = some l ∧ bs = l.take (min t l.length) ∧
        c2 = ⟨c.done, some (l.drop (min t l.length)), c.cerr⟩ := by
  unfold chunkRead at h
  split at h
  · simp at h
  · rename_i hdone
    have hdone2 : c.done = true := by
      cases hb : c.done
      · exact absurd hb hdone
      · rfl
    split at h
    · simp at h
    · rename_i hcerr
      split at h
      · simp at h
      · rename_i hbuf
        split at h
        · rename_i hplen
          simp only [Prod.mk.injEq, CRead.bytes.injEq] at h
          obtain ⟨hbs, hc2, hsent⟩ := h
          refine ⟨hdone2, hcerr, hsent.symm, [], hbuf, by simp [hbs.symm], ?_⟩
          rw [← hc2]
          simp only [List.drop_nil]
          rw [← hbuf]
        · simp at h
      · rename_i b bs2 hbuf
        split at h
        · rename_i hm
          simp only [Prod.mk.injEq, CRead.bytes.injEq] at h
          obtain ⟨hbs, hc2, hsent⟩ := h
          refine ⟨hdone2, hcerr, hsent.symm, b :: bs2, hbuf, ?_, ?_⟩
          · rw [hm]
            simp [hbs.symm]
          · rw [← hc2, hm]
            simp only [List.drop_zero]
            rw [← hbuf]
        · simp only [Prod.mk.injEq, CRead.bytes.injEq] at h
          obtain ⟨hbs, hc2, hsent⟩ := h
          exact ⟨hdone2, hcerr, hsent.symm, b :: bs2, hbuf, hbs.symm, hc2.symm⟩

theorem invA_start (k : Nat) : InvA k St.start := by
  refine ⟨rfl, ?_, rfl, fun _ => rfl, fun _ _ => rfl, fun _ _ => rfl, fun _ => rfl,
    fun _ _ => rfl, ?_, fun _ => rfl, fun _ _ => rfl, fun _ _ => rfl, ?_, ?_⟩
  · intro w h
    exact WSt.noConfusion h
  · have : ∀ n, countBusy (fun _ => WSt.waiting) n = 0 := by
      intro n
      induction n with
      | zero => rfl
      | succ m ih => simp [countBusy, ih, WSt.isBusy]
    simp [St.start, this]
  · intro w i h
    exact absurd h (by simp [St.start])
  · intro w w2 i h
    exact absurd h (by simp [St.start])

theorem invA_step (N k : Nat) (env : Nat → Resp) (s s2 : St) (e : Ev)
    (h : InvA k s) (hs : step N k env s e = some s2) : InvA k s2 := by
  cases e with
  | readEnter =>
    simp only [step] at hs
    split at hs
    · cases hs
    · cases hd : s.derr with
      | some e0 =>
        rw [hd] at hs
        cases hs
        exact ⟨h.closedF, h.noExit, h.spawnOnce, h.preFeeder, h.preWs, h.preCs, h.preRst,
          h.highWs, h.balance, h.closesDone, h.pendingBuf, h.untouchedA, h.dlBoundA, h.dlUniqueA⟩
      | none =>
        rw [hd] at hs
        cases hs
        refine ⟨h.closedF, h.noExit, ?_, (fun hc => nomatch hc), (fun hc => nomatch hc),
          (fun hc => nomatch hc), (fun hc => nomatch hc),
          h.highWs, h.balance, h.closesDone, h.pendingBuf, h.untouchedA, h.dlBoundA, h.dlUniqueA⟩
        cases hst : s.started <;> simp [hst, h.spawnOnce]
  | readChunk t =>
    simp only [step] at hs
    split at hs
    · cases hs
    · rename_i hcond
      push_neg at hcond
      obtain ⟨hrst, ht0⟩ := hcond
      have hstarted : s.started = true := by
        cases hst : s.started with
        | true => rfl
        | false => rw [h.preRst hst] at hrst; cases hrst
      split at hs
      · rename_i hcN
        split at hs
        · cases hs
        · cases hs
        · rename_i e0 c2 sent heq
          cases hs
          obtain ⟨hdone, hcerr, hc2, _⟩ := chunkRead_failed_inv heq
          subst hc2
          refine ⟨h.closedF, h.noExit, h.spawnOnce,
            (fun hc => nomatch hstarted.symm.trans hc),
            (fun hc => nomatch hstarted.symm.trans hc),
            (fun hc => nomatch hstarted.symm.trans hc),
            (fun hc => nomatch hstarted.symm.trans hc),
            h.highWs, h.balance, ?_, ?_, ?_, ?_, h.dlUniqueA⟩
          · intro j
            by_cases hj : j = s.cursor
            · subst hj; simp only [upd_self]; exact h.closesDone s.cursor
            · simp only [upd_other _ _ _ _ hj]; exact h.closesDone j
          · intro j hjd
            by_cases hj : j = s.cursor
            · subst hj; simp only [upd_self] at hjd ⊢; exact h.pendingBuf s.cursor hjd
            · simp only [upd_other _ _ _ _ hj] at hjd ⊢; exact h.pendingBuf j hjd
          · intro j hj
            by_cases hje : j = s.cursor
            · subst hje; simp only [upd_self]; exact h.untouchedA s.cursor hj
            · simp only [upd_other _ _ _ _ hje]; exact h.untouchedA j hj
          · intro w i hw
            obtain ⟨h1, h2⟩ := h.dlBoundA w i hw
            refine ⟨h1, ?_⟩
            by_cases hj : i = s.cursor
            · subst hj; simp only [upd_self]; exact h2
            · simp only [upd_other _ _ _ _ hj]; exact h2
        · rename_i c2 sent heq
          split at hs
          · cases hs
            obtain ⟨hdone, hcerr, hbuf, hc2, _⟩ := chunkRead_eof_inv heq
            subst hc2
            have hcurlt : s.cursor < s.feeder := by
              by_contra hc
              push_neg at hc
              rw [h.untouchedA s.cursor hc] at hdone
              cases hdone
            refine ⟨h.closedF, h.noExit, h.spawnOnce,
              (fun hc => nomatch hstarted.symm.trans hc),
              (fun hc => nomatch hstarted.symm.trans hc),
              (fun hc => nomatch hstarted.symm.trans hc),
              (fun hc => nomatch hstarted.symm.trans hc),
              h.highWs, ?_, ?_, ?_, ?_, ?_, h.dlUniqueA⟩
            · have := h.balance
              dsimp only
              omega
            · intro j
              by_cases hj : j = s.cursor
              · subst hj; simp only [upd_self]; exact h.closesDone s.cursor
              · simp only [upd_other _ _ _ _ hj]; exact h.closesDone j
            · intro j hjd
              by_cases hj : j = s.cursor
              · subst hj
                simp only [upd_self] at hjd
                exact absurd (hdone.symm.trans hjd) (by simp)
              · simp only [upd_other _ _ _ _ hj] at hjd ⊢; exact h.pendingBuf j hjd
            · intro j hj
              dsimp only at hj
              by_cases hje : j = s.cursor
              · subst hje
                exact absurd hj (by omega)
              · simp only [upd_other _ _ _ _ hje]
                exact h.untouchedA j hj
            · intro w i hw
              obtain ⟨h1, h2⟩ := h.dlBoundA w i hw
              have hj : i ≠ s.cursor := by
                intro heq2
                rw [heq2, hdone] at h2
                cases h2
              exact ⟨h1, by simp only [upd_other _ _ _ _ hj]; exact h2⟩
          · cases hs
        · rename_i bs0 c2 sent heq
          cases hs
          obtain ⟨hdone, hcerr, _, l, hbuf, hbs, hc2⟩ := chunkRead_bytes_inv heq
          subst hc2
          refine ⟨h.closedF, h.noExit, h.spawnOnce,
            (fun hc => nomatch hstarted.symm.trans hc),
            (fun hc => nomatch hstarted.symm.trans hc),
            (fun hc => nomatch hstarted.symm.trans hc),
            (fun hc => nomatch hstarted.symm.trans hc),
            h.highWs, h.balance, ?_, ?_, ?_, ?_, h.dlUniqueA⟩
          · intro j
            by_cases hj : j = s.cursor
            · subst hj; simp only [upd_self]; exact h.closesDone s.cursor
            · simp only [upd_other _ _ _ _ hj]; exact h.closesDone j
          · intro j hjd
            by_cases hj : j = s.cursor
            · subst hj
              simp only [upd_self] at hjd
              exact absurd (hdone.symm.trans hjd) (by simp)
            · simp only [upd_other _ _ _ _ hj] at hjd ⊢; exact h.pendingBuf j hjd
          · intro j hj
            by_cases hje : j = s.cursor
            · subst hje
              have h3 := h.untouchedA s.cursor hj
              rw [hdone] at h3
              cases h3
            · simp only [upd_other _ _ _ _ hje]
              exact h.untouchedA j hj
          · intro w i hw
            obtain ⟨h1, h2⟩ := h.dlBoundA w i hw
            have hj : i ≠ s.cursor := by
              intro heq2
              rw [heq2, hdone] at h2
              cases h2
            exact ⟨h1, by simp only [upd_other _ _ _ _ hj]; exact h2⟩
      · cases hs
        exact ⟨h.closedF, h.noExit, h.spawnOnce, h.preFeeder, h.preWs, h.preCs,
          fun _ => rfl, h.highWs, h.balance, h.closesDone, h.pendingBuf, h.untouchedA,
          h.dlBoundA, h.dlUniqueA⟩
  | claim w =>
    simp only [step] at hs
    split at hs
    · rename_i hcond
      obtain ⟨hst, hwk, hww, hfN⟩ := hcond
      cases hs
      have hcb := countBusy_upd s.ws w (.downloading s.feeder) k hwk
      rw [hww] at hcb
      simp [WSt.isBusy] at hcb
      refine ⟨h.closedF, ?_, h.spawnOnce,
        (fun hc => nomatch hst.symm.trans hc),
        (fun hc => nomatch hst.symm.trans hc),
        (fun hc => nomatch hst.symm.trans hc),
        (fun hc => nomatch hst.symm.trans hc),
        ?_, ?_, h.closesDone, h.pendingBuf, ?_, ?_, ?_⟩
      · intro w2
        by_cases hw2 : w2 = w
        · subst hw2; simp only [upd_self]; intro hc; cases hc
        · simp only [upd_other _ _ _ _ hw2]; exact h.noExit w2
      · intro w2 hk2
        have : w2 ≠ w := by omega
        simp only [upd_other _ _ _ _ this]
        exact h.highWs w2 hk2
      · have := h.balance
        dsimp only
        omega
      · intro j hj
        dsimp only at hj
        exact h.untouchedA j (by omega)
      · intro w2 i hw2
        by_cases hw2w : w2 = w
        · subst hw2w
          simp only [upd_self] at hw2
          cases hw2
          refine ⟨?_, h.untouchedA s.feeder (Nat.le_refl _)⟩
          dsimp only
          omega
        · simp only [upd_other _ _ _ _ hw2w] at hw2
          obtain ⟨h1, h2⟩ := h.dlBoundA w2 i hw2
          refine ⟨?_, h2⟩
          dsimp only
          omega
      · intro w1 w2 i hw1 hw2
        by_cases hw1w : w1 = w <;> by_cases hw2w : w2 = w
        · rw [hw1w, hw2w]
        · subst hw1w
          simp only [upd_self] at hw1
          simp only [upd_other _ _ _ _ hw2w] at hw2
          cases hw1
          obtain ⟨h1, _⟩ := h.dlBoundA w2 _ hw2
          omega
        · subst hw2w
          simp only [upd_self] at hw2
          simp only [upd_other _ _ _ _ hw1w] at hw1
          cases hw2
          obtain ⟨h1, _⟩ := h.dlBoundA w1 _ hw1
          omega
        · simp only [upd_other _ _ _ _ hw1w] at hw1
          simp only [upd_other _ _ _ _ hw2w] at hw2
          exact h.dlUniqueA w1 w2 i hw1 hw2
    · cases hs
  | finish w =>
    simp only [step] at hs
    split at hs
    · rename_i hcond
      obtain ⟨hst, hwk⟩ := hcond
      split at hs
      · rename_i i hww
        split at hs
        · cases hs
        · rename_i bs hbuf
          cases hs
          obtain ⟨hif, hdone⟩ := h.dlBoundA w i hww
          have hbusy : (match (downloadRun (env i)).1 with
              | some e2 => WSt.recording i e2
              | none => WSt.waitToken).isBusy = true := by
            cases (downloadRun (env i)).1 <;> rfl
          have hcb := countBusy_upd s.ws w (match (downloadRun (env i)).1 with
              | some e2 => WSt.recording i e2
              | none => WSt.waitToken) k hwk
          rw [hww, hbusy] at hcb
          simp [WSt.isBusy] at hcb
          refine ⟨h.closedF, ?_, h.spawnOnce,
            (fun hc => nomatch hst.symm.trans hc),
            (fun hc => nomatch hst.symm.trans hc),
            (fun hc => nomatch hst.symm.trans hc),
            (fun hc => nomatch hst.symm.trans hc),
            ?_, ?_, ?_, ?_, ?_, ?_, ?_⟩
          · intro w2
            by_cases hw2 : w2 = w
            · subst hw2
              simp only [upd_self]
              cases (downloadRun (env i)).1 <;> (intro hc; cases hc)
            · simp only [upd_other _ _ _ _ hw2]; exact h.noExit w2
          · intro w2 hk2
            have hne : w2 ≠ w := by omega
            simp only [upd_other _ _ _ _ hne]
            exact h.highWs w2 hk2
          · have := h.balance
            dsimp only
            omega
          · intro j
            by_cases hj : j = i
            · subst hj
              simp only [upd_self]
              have h3 := h.closesDone j
              rw [hdone] at h3
              simp at h3
              simp [h3]
            · simp only [upd_other _ _ _ _ hj]
              exact h.closesDone j
          · intro j hjd
            by_cases hj : j = i
            · subst hj; simp only [upd_self] at hjd; cases hjd
            · simp only [upd_other _ _ _ _ hj] at hjd ⊢
              exact h.pendingBuf j hjd
          · intro j hj
            have hj2 : s.feeder ≤ j := hj
            have hji : j ≠ i := by omega
            simp only [upd_other _ _ _ _ hji]
            exact h.untouchedA j hj2
          · intro w2 i2 hw2
            by_cases hw2w : w2 = w
            · subst hw2w
              simp only [upd_self] at hw2
              cases hdl0 : (downloadRun (env i)).1 <;> rw [hdl0] at hw2 <;> simp at hw2
            · simp only [upd_other _ _ _ _ hw2w] at hw2
              obtain ⟨h1, h2⟩ := h.dlBoundA w2 i2 hw2
              refine ⟨h1, ?_⟩
              have hji : i2 ≠ i := fun heq2 => hw2w (h.dlUniqueA w2 w i (heq2 ▸ hw2) hww)
              simp only [upd_other _ _ _ _ hji]
              exact h2
          · intro w1 w2 i2 hw1 hw2
            by_cases hw1w : w1 = w
            · subst hw1w
              simp only [upd_self] at hw1
              cases hdl0 : (downloadRun (env i)).1 <;> rw [hdl0] at hw1 <;> simp at hw1
            · by_cases hw2w : w2 = w
              · subst hw2w
                simp only [upd_self] at hw2
                cases hdl0 : (downloadRun (env i)).1 <;> rw [hdl0] at hw2 <;> simp at hw2
              · simp only [upd_other _ _ _ _ hw1w] at hw1
                simp only [upd_other _ _ _ _ hw2w] at hw2
                exact h.dlUniqueA w1 w2 i2 hw1 hw2
      · cases hs
    · cases hs
  | record w =>
    simp only [step] at hs
    split at hs
    · rename_i hcond
      obtain ⟨hst, hwk⟩ := hcond
      split at hs
      · rename_i iR eR hww
        cases hs
        have hcb := countBusy_upd s.ws w .waitToken k hwk
        rw [hww] at hcb
        simp [WSt.isBusy] at hcb
        refine ⟨h.closedF, ?_, h.spawnOnce,
          (fun hc => nomatch hst.symm.trans hc),
          (fun hc => nomatch hst.symm.trans hc),
          (fun hc => nomatch hst.symm.trans hc),
          (fun hc => nomatch hst.symm.trans hc),
          ?_, ?_, h.closesDone, h.pendingBuf, h.untouchedA, ?_, ?_⟩
        · intro w2
          by_cases hw2 : w2 = w
          · subst hw2; simp only [upd_self]; intro hc; cases hc
          · simp only [upd_other _ _ _ _ hw2]; exact h.noExit w2
        · intro w2 hk2
          have hne : w2 ≠ w := by omega
          simp only [upd_other _ _ _ _ hne]
          exact h.highWs w2 hk2
        · have := h.balance
          dsimp only
          omega
        · intro w2 i2 hw2
          by_cases hw2w : w2 = w
          · subst hw2w; simp only [upd_self] at hw2; cases hw2
          · simp only [upd_other _ _ _ _ hw2w] at hw2
            exact h.dlBoundA w2 i2 hw2
        · intro w1 w2 i2 hw1 hw2
          by_cases hw1w : w1 = w
          · subst hw1w; simp only [upd_self] at hw1; cases hw1
          · by_cases hw2w : w2 = w
            · subst hw2w; simp only [upd_self] at hw2; cases hw2
            · simp only [upd_other _ _ _ _ hw1w] at hw1
              simp only [upd_other _ _ _ _ hw2w] at hw2
              exact h.dlUniqueA w1 w2 i2 hw1 hw2
      · cases hs
    · cases hs
  | take w =>
    simp only [step] at hs
    split at hs
    · rename_i hcond
      obtain ⟨hst, hwk, hww, htk⟩ := hcond
      cases hs
      have hcb := countBusy_upd s.ws w .waiting k hwk
      rw [hww] at hcb
      simp [WSt.isBusy] at hcb
      refine ⟨h.closedF, ?_, h.spawnOnce,
        (fun hc => nomatch hst.symm.trans hc),
        (fun hc => nomatch hst.symm.trans hc),
        (fun hc => nomatch hst.symm.trans hc),
        (fun hc => nomatch hst.symm.trans hc),
        ?_, ?_, h.closesDone, h.pendingBuf, h.untouchedA, ?_, ?_⟩
      · intro w2
        by_cases hw2 : w2 = w
        · subst hw2; simp only [upd_self]; intro hc; cases hc
        · simp only [upd_other _ _ _ _ hw2]; exact h.noExit w2
      · intro w2 hk2
        have hne : w2 ≠ w := by omega
        simp only [upd_other _ _ _ _ hne]
        exact h.highWs w2 hk2
      · have := h.balance
        dsimp only
        omega
      · intro w2 i2 hw2
        by_cases hw2w : w2 = w
        · subst hw2w; simp only [upd_self] at hw2; cases hw2
        · simp only [upd_other _ _ _ _ hw2w] at hw2
          exact h.dlBoundA w2 i2 hw2
      · intro w1 w2 i2 hw1 hw2
        by_cases hw1w : w1 = w
        · subst hw1w; simp only [upd_self] at hw1; cases hw1
        · by_cases hw2w : w2 = w
          · subst hw2w; simp only [upd_self] at hw2; cases hw2
          · simp only [upd_other _ _ _ _ hw1w] at hw1
            simp only [upd_other _ _ _ _ hw2w] at hw2
            exact h.dlUniqueA w1 w2 i2 hw1 hw2
    · cases hs
  | exit w =>
    simp only [step] at hs
    split at hs
    · rename_i hcond
      obtain ⟨_, _, _, hcl, _⟩ := hcond
      rw [h.closedF] at hcl
      cases hcl
    · cases hs

theorem invA_reach (N k : Nat) (env : Nat → Resp) (s : St) (h : Reach N k env s) :
    InvA k s := by
  induction h with
  | start => exact invA_start k
  | next _ hstep ih => exact invA_step N k env _ _ _ ih hstep

theorem invB_start (N : Nat) (pay : Nat → List Byte) : InvB N pay St.start := by
  refine ⟨Nat.zero_le N, Nat.zero_le N, rfl, ?_, fun _ => rfl, ?_, ?_, ?_, ?_, ?_, ?_, ?_, ?_, ?_⟩
  · intro w i e hc
    cases hc
  · intro j hj
    cases hj
  · intro j _
    exact ⟨(fun hd => nomatch hd), (fun _ => rfl)⟩
  · intro _ hd
    cases hd
  · intro _ _
    exact ⟨rfl, rfl⟩
  · intro hN
    rw [← hN]
    rfl
  · intro he
    cases he
  · intro j _
    exact ⟨rfl, rfl⟩
  · intro w i hc
    cases hc
  · intro w w2 i hc
    cases hc

theorem invB_step (N k : Nat) (env : Nat → Resp) (pay : Nat → List Byte)
    (henv : ∀ i, i < N → env i = .resp 206 (pay i) true)
    (s s2 : St) (e : Ev) (h : InvB N pay s) (hs : step N k env s e = some s2) :
    InvB N pay s2 := by
  cases e with
  | readEnter =>
    simp only [step] at hs
    split at hs
    · cases hs
    · cases hd : s.derr with
      | some e0 =>
        rw [h.derrNone] at hd
        cases hd
      | none =>
        rw [hd] at hs
        cases hs
        exact ⟨h.cursorLe, h.feederLe, rfl, h.noRecord, h.cerrNone, h.below, h.above,
          h.atCurDone, h.atCurPending, h.atEnd, h.eofCursor, h.untouchedB, h.dlBoundB,
          h.dlUniqueB⟩
  | readChunk t =>
    simp only [step] at hs
    split at hs
    · cases hs
    · split at hs
      · rename_i hcN
        split at hs
        · cases hs
        · cases hs
        · rename_i e0 c2 sent heq
          obtain ⟨_, hcerr, _, _⟩ := chunkRead_failed_inv heq
          rw [h.cerrNone s.cursor] at hcerr
          cases hcerr
        · rename_i c2 sent heq
          split at hs
          · cases hs
            obtain ⟨hdone, hcerr, hbuf, hc2, _⟩ := chunkRead_eof_inv heq
            subst hc2
            obtain ⟨pre, l0, hbuf0, hsplit, hacc0⟩ := h.atCurDone hcN hdone
            have hl0 : l0 = [] := Option.some_inj.mp (hbuf0.symm.trans hbuf)
            subst hl0
            have hpre : pay s.cursor = pre := by simpa using hsplit
            have hacc : s.acc = joinUpTo pay (s.cursor + 1) := by
              rw [hacc0]
              show joinUpTo pay s.cursor ++ pre = joinUpTo pay s.cursor ++ pay s.cursor
              rw [hpre]
            have hcurlt : s.cursor < s.feeder := by
              by_contra hc
              push_neg at hc
              have := (h.untouchedB s.cursor hc).1
              rw [hdone] at this
              cases this
            refine ⟨by dsimp only; omega, h.feederLe, h.derrNone, h.noRecord, ?_, ?_, ?_,
              ?_, ?_, ?_, ?_, ?_, ?_, h.dlUniqueB⟩
            · intro j
              by_cases hj : j = s.cursor
              · subst hj; simp only [upd_self]; exact h.cerrNone s.cursor
              · simp only [upd_other _ _ _ _ hj]; exact h.cerrNone j
            · intro j hj
              dsimp only at hj
              by_cases hj2 : j = s.cursor
              · subst hj2
                simp only [upd_self]
                exact ⟨hdone, by trivial⟩
              · simp only [upd_other _ _ _ _ hj2]
                exact h.below j (by omega)
            · intro j hj
              dsimp only at hj
              have hj2 : j ≠ s.cursor := by omega
              simp only [upd_other _ _ _ _ hj2]
              exact h.above j (by omega)
            · intro hlt2 hdone2
              dsimp only at hlt2
              have hne : s.cursor + 1 ≠ s.cursor := by omega
              simp only [upd_other _ _ _ _ hne] at hdone2 ⊢
              refine ⟨[], pay (s.cursor + 1), (h.above (s.cursor + 1) (by omega)).1 hdone2,
                by simp, ?_⟩
              dsimp only
              rw [hacc]
              simp
            · intro hlt2 hdone2
              dsimp only at hlt2
              have hne : s.cursor + 1 ≠ s.cursor := by omega
              simp only [upd_other _ _ _ _ hne] at hdone2 ⊢
              exact ⟨(h.above (s.cursor + 1) (by omega)).2 hdone2, hacc⟩
            · intro hN
              dsimp only at hN
              dsimp only
              rw [hacc, hN]
            · intro he
              have he2 : s.atEOF = true := he
              exact absurd (h.eofCursor he2) (by omega)
            · intro j hj
              dsimp only at hj
              have hj2 : j ≠ s.cursor := by omega
              simp only [upd_other _ _ _ _ hj2]
              exact h.untouchedB j hj
            · intro w i hw
              obtain ⟨h1, h2⟩ := h.dlBoundB w i hw
              have hj : i ≠ s.cursor := by
                intro heq2
                rw [heq2, hdone] at h2
                cases h2
              exact ⟨h1, by simp only [upd_other _ _ _ _ hj]; exact h2⟩
          · cases hs
        · rename_i bs0 c2 sent heq
          cases hs
          obtain ⟨hdone, hcerr, _, l, hbuf, hbs, hc2⟩ := chunkRead_bytes_inv heq
          subst hc2
          obtain ⟨pre, l0, hbuf0, hsplit, hacc0⟩ := h.atCurDone hcN hdone
          have hl0 : l0 = l := Option.some_inj.mp (hbuf0.symm.trans hbuf)
          subst hl0
          have hcurlt : s.cursor < s.feeder := by
            by_contra hc
            push_neg at hc
            have := (h.untouchedB s.cursor hc).1
            rw [hdone] at this
            cases this
          refine ⟨h.cursorLe, h.feederLe, h.derrNone, h.noRecord, ?_, ?_, ?_,
            ?_, ?_, ?_, h.eofCursor, ?_, ?_, h.dlUniqueB⟩
          · intro j
            by_cases hj : j = s.cursor
            · subst hj; simp only [upd_self]; exact h.cerrNone s.cursor
            · simp only [upd_other _ _ _ _ hj]; exact h.cerrNone j
          · intro j hj
            dsimp only at hj
            have hj2 : j ≠ s.cursor := by omega
            simp only [upd_other _ _ _ _ hj2]
            exact h.below j hj
          · intro j hj
            dsimp only at hj
            have hj2 : j ≠ s.cursor := by omega
            simp only [upd_other _ _ _ _ hj2]
            exact h.above j hj
          · intro hlt2 _
            refine ⟨pre ++ l0.take (min t l0.length), l0.drop (min t l0.length),
              by simp only [upd_self], ?_, ?_⟩
            · rw [hsplit]
              rw [List.append_assoc]
              rw [List.take_append_drop]
            · dsimp only
              rw [hacc0, hbs]
              rw [List.append_assoc]
          · intro hlt2 hdone2
            simp only [upd_self] at hdone2
            rw [hdone] at hdone2
            cases hdone2
          · intro hN
            exact absurd (show s.cursor = N from hN) (by omega)
          · intro j hj
            dsimp only at hj
            have hj2 : j ≠ s.cursor := by omega
            simp only [upd_other _ _ _ _ hj2]
            exact h.untouchedB j hj
          · intro w i hw
            obtain ⟨h1, h2⟩ := h.dlBoundB w i hw
            have hj : i ≠ s.cursor := by
              intro heq2
              rw [heq2, hdone] at h2
              cases h2
            exact ⟨h1, by simp only [upd_other _ _ _ _ hj]; exact h2⟩
      · rename_i hcN
        cases hs
        have hcur : s.cursor = N := by
          have := h.cursorLe
          omega
        exact ⟨h.cursorLe, h.feederLe, h.derrNone, h.noRecord, h.cerrNone, h.below, h.above,
          h.atCurDone, h.atCurPending, h.atEnd, (fun _ => hcur), h.untouchedB, h.dlBoundB,
          h.dlUniqueB⟩
  | claim w =>
    simp only [step] at hs
    split at hs
    · rename_i hcond
      obtain ⟨hst, hwk, hww, hfN⟩ := hcond
      cases hs
      refine ⟨h.cursorLe, by dsimp only; omega, h.derrNone, ?_, h.cerrNone, h.below, h.above,
        h.atCurDone, h.atCurPending, h.atEnd, h.eofCursor, ?_, ?_, ?_⟩
      · intro w2 i e
        by_cases hw2 : w2 = w
        · subst hw2; simp only [upd_self]; intro hc; cases hc
        · simp only [upd_other _ _ _ _ hw2]; exact h.noRecord w2 i e
      · intro j hj
        dsimp only at hj
        exact h.untouchedB j (by omega)
      · intro w2 i hw2
        by_cases hw2w : w2 = w
        · subst hw2w
          simp only [upd_self] at hw2
          cases hw2
          exact ⟨by dsimp only; omega, (h.untouchedB s.feeder (Nat.le_refl _)).1⟩
        · simp only [upd_other _ _ _ _ hw2w] at hw2
          obtain ⟨h1, h2⟩ := h.dlBoundB w2 i hw2
          exact ⟨by dsimp only; omega, h2⟩
      · intro w1 w2 i hw1 hw2
        by_cases hw1w : w1 = w <;> by_cases hw2w : w2 = w
        · rw [hw1w, hw2w]
        · subst hw1w
          simp only [upd_self] at hw1
          simp only [upd_other _ _ _ _ hw2w] at hw2
          cases hw1
          obtain ⟨h1, _⟩ := h.dlBoundB w2 _ hw2
          omega
        · subst hw2w
          simp only [upd_self] at hw2
          simp only [upd_other _ _ _ _ hw1w] at hw1
          cases hw2
          obtain ⟨h1, _⟩ := h.dlBoundB w1 _ hw1
          omega
        · simp only [upd_other _ _ _ _ hw1w] at hw1
          simp only [upd_other _ _ _ _ hw2w] at hw2
          exact h.dlUniqueB w1 w2 i hw1 hw2
    · cases hs
  | finish w =>
    simp only [step] at hs
    split at hs
    · rename_i hcond
      obtain ⟨hst, hwk⟩ := hcond
      split at hs
      · rename_i i hww
        split at hs
        · cases hs
        · rename_i bs hbuf
          cases hs
          obtain ⟨hif, hdone⟩ := h.dlBoundB w i hww
          have hiN : i < N := by
            have := h.feederLe
            omega
          have henvi : env i = .resp 206 (pay i) true := henv i hiN
          have hdl1 : (downloadRun (env i)).1 = none := by
            rw [henvi]; simp [downloadRun]
          have hdl2 : (downloadRun (env i)).2 = pay i := by
            rw [henvi]; simp [downloadRun]
          have hibuf : (s.cs i).buf = some [] := by
            rcases Nat.lt_trichotomy i s.cursor with hlt | heqc | hgt
            · have := (h.below i hlt).1
              rw [hdone] at this
              cases this
            · rw [heqc]
              rw [heqc] at hdone
              exact (h.atCurPending (by omega) hdone).1
            · exact (h.above i hgt).2 hdone
          have hbsnil : ([] : List Byte) = bs :=
            Option.some_inj.mp (hibuf.symm.trans hbuf)
          have hwv : (match (downloadRun (env i)).1 with
              | some e2 => WSt.recording i e2
              | none => WSt.waitToken) = WSt.waitToken := by
            rw [hdl1]
          refine ⟨h.cursorLe, h.feederLe, h.derrNone, ?_, ?_, ?_, ?_, ?_, ?_, h.atEnd,
            h.eofCursor, ?_, ?_, ?_⟩
          · intro w2 i2 e2
            by_cases hw2 : w2 = w
            · subst hw2
              simp only [upd_self, hwv]
              intro hc
              cases hc
            · simp only [upd_other _ _ _ _ hw2]
              exact h.noRecord w2 i2 e2
          · intro j
            by_cases hj : j = i
            · subst hj; simp only [upd_self]; exact h.cerrNone j
            · simp only [upd_other _ _ _ _ hj]; exact h.cerrNone j
          · intro j hj
            have hji : j ≠ i := by
              intro heq2
              rw [heq2] at hj
              have := (h.below i hj).1
              rw [hdone] at this
              cases this
            simp only [upd_other _ _ _ _ hji]
            exact h.below j hj
          · intro j hj
            by_cases hji : j = i
            · subst hji
              simp only [upd_self]
              rw [← hbsnil, hdl2]
              refine ⟨fun _ => by simp, fun hc => ?_⟩
              cases hc
            · simp only [upd_other _ _ _ _ hji]
              exact h.above j hj
          · intro hlt2 hdone2
            by_cases hic : i = s.cursor
            · subst hic
              simp only [upd_self]
              obtain ⟨_, hacc⟩ := h.atCurPending hlt2 hdone
              refine ⟨[], pay s.cursor, ?_, by simp, by rw [hacc]; simp⟩
              rw [← hbsnil, hdl2]
              simp
            · simp only [upd_other _ _ _ _ (fun hc => hic (hc.symm ▸ rfl) : s.cursor ≠ i)] at hdone2 ⊢
              exact h.atCurDone hlt2 hdone2
          · intro hlt2 hdone2
            by_cases hic : i = s.cursor
            · subst hic
              simp only [upd_self] at hdone2
              cases hdone2
            · simp only [upd_other _ _ _ _ (fun hc => hic (hc.symm ▸ rfl) : s.cursor ≠ i)] at hdone2 ⊢
              exact h.atCurPending hlt2 hdone2
          · intro j hj
            have hji : j ≠ i := by
              dsimp only at hj
              omega
            simp only [upd_other _ _ _ _ hji]
            exact h.untouchedB j hj
          · intro w2 i2 hw2
            by_cases hw2w : w2 = w
            · subst hw2w
              simp only [upd_self, hwv] at hw2
              cases hw2
            · simp only [upd_other _ _ _ _ hw2w] at hw2
              obtain ⟨h1, h2⟩ := h.dlBoundB w2 i2 hw2
              refine ⟨h1, ?_⟩
              have hji : i2 ≠ i := fun heq2 => hw2w (h.dlUniqueB w2 w i (heq2 ▸ hw2) hww)
              simp only [upd_other _ _ _ _ hji]
              exact h2
          · intro w1 w2 i2 hw1 hw2
            by_cases hw1w : w1 = w
            · subst hw1w
              simp only [upd_self, hwv] at hw1
              cases hw1
            · by_cases hw2w : w2 = w
              · subst hw2w
                simp only [upd_self, hwv] at hw2
                cases hw2
              · simp only [upd_other _ _ _ _ hw1w] at hw1
                simp only [upd_other _ _ _ _ hw2w] at hw2
                exact h.dlUniqueB w1 w2 i2 hw1 hw2
      · cases hs
    · cases hs
  | record w =>
    simp only [step] at hs
    split at hs
    · split at hs
      · rename_i iR eR hww
        exact absurd hww (h.noRecord w iR eR)
      · cases hs
    · cases hs
  | take w =>
    simp only [step] at hs
    split at hs
    · rename_i hcond
      obtain ⟨hst, hwk, hww, htk⟩ := hcond
      cases hs
      refine ⟨h.cursorLe, h.feederLe, h.derrNone, ?_, h.cerrNone, h.below, h.above,
        h.atCurDone, h.atCurPending, h.atEnd, h.eofCursor, h.untouchedB, ?_, ?_⟩
      · intro w2 i e
        by_cases hw2 : w2 = w
        · subst hw2; simp only [upd_self]; intro hc; cases hc
        · simp only [upd_other _ _ _ _ hw2]; exact h.noRecord w2 i e
      · intro w2 i2 hw2
        by_cases hw2w : w2 = w
        · subst hw2w; simp only [upd_self] at hw2; cases hw2
        · simp only [upd_other _ _ _ _ hw2w] at hw2
          exact h.dlBoundB w2 i2 hw2
      · intro w1 w2 i2 hw1 hw2
        by_cases hw1w : w1 = w
        · subst hw1w; simp only [upd_self] at hw1; cases hw1
        · by_cases hw2w : w2 = w
          · subst hw2w; simp only [upd_self] at hw2; cases hw2
          · simp only [upd_other _ _ _ _ hw1w] at hw1
            simp only [upd_other _ _ _ _ hw2w] at hw2
            exact h.dlUniqueB w1 w2 i2 hw1 hw2
    · cases hs
  | exit w =>
    simp only [step] at hs
    split at hs
    · rename_i hcond
      obtain ⟨hst, hwk, hww, hcl, hfd⟩ := hcond
      cases hs
      refine ⟨h.cursorLe, h.feederLe, h.derrNone, ?_, h.cerrNone, h.below, h.above,
        h.atCurDone, h.atCurPending, h.atEnd, h.eofCursor, h.untouchedB, ?_, ?_⟩
      · intro w2 i e
        by_cases hw2 : w2 = w
        · subst hw2; simp only [upd_self]; intro hc; cases hc
        · simp only [upd_other _ _ _ _ hw2]; exact h.noRecord w2 i e
      · intro w2 i2 hw2
        by_cases hw2w : w2 = w
        · subst hw2w; simp only [upd_self] at hw2; cases hw2
        · simp only [upd_other _ _ _ _ hw2w] at hw2
          exact h.dlBoundB w2 i2 hw2
      · intro w1 w2 i2 hw1 hw2
        by_cases hw1w : w1 = w
        · subst hw1w; simp only [upd_self] at hw1; cases hw1
        · by_cases hw2w : w2 = w
          · subst hw2w; simp only [upd_self] at hw2; cases hw2
          · simp only [upd_other _ _ _ _ hw1w] at hw1
            simp only [upd_other _ _ _ _ hw2w] at hw2
            exact h.dlUniqueB w1 w2 i2 hw1 hw2
    · cases hs

theorem invB_reach (N k : Nat) (env : Nat → Resp) (pay : Nat → List Byte)
    (henv : ∀ i, i < N → env i = .resp 206 (pay i) true)
    (s : St) (h : Reach N k env s) : InvB N pay s := by
  induction h with
  | start => exact invB_start N pay
  | next _ hstep ih => exact invB_step N k env pay henv _ _ _ ih hstep

/-- C1: the partition loop of Open is claimed to tile exactly the interval
from 0 to the object length, the last range possibly shorter; with
Content-Length 25 and part size 10 the claim expects chunk sizes 10, 10, 5.
The code computes every chunk size as min64(minPartSize, s) -- min with the
total size, not with the bytes remaining -- so the third chunk has size 10 and
its Range header is bytes=20-29, overshooting the 25-byte object. -/
theorem partition_last_range_overshoots :
    buildRanges 10 25 = [(0, 10), (10, 10), (20, 10)] ∧
      (buildRanges 10 25).map Prod.snd ≠ [10, 10, 5] := by
  decide

/-- C2: the claim says a failed chunk surfaces its error at the chunk's
position in the stream and no bytes of later chunks are ever returned.  In
the code, chunk.err is never assigned (the worker stores the Download error
only in d.err after close(done) has fired), so the failed chunk 0 reads as an
instant end-of-data and the consumer receives chunk 1's bytes [66, 66] before
any Read reports the stored error. -/
theorem error_after_later_chunk_bytes :
    (run 2 2 envBad St.start evsBad).isSome = true ∧
      sBad.acc = [66, 66] ∧
      sBad.rerr = some (DErr.response 500 []) ∧
      sBad.derr = some (DErr.response 500 []) ∧
      (sBad.cs 0).cerr = none := by
  decide

/-- C3: order preservation.  For every chunk count, concurrency, payload
assignment, and every schedule of the workers and the consumer (hence every
completion order), when all chunk requests succeed and the consumer has read
to end of stream, the bytes it received are exactly the concatenation of the
chunk payloads in index order. -/
theorem stream_reassembles_in_index_order (N k : Nat) (env : Nat → Resp)
    (pay : Nat → List Byte) (henv : ∀ i, i < N → env i = .resp 206 (pay i) true)
    (s : St) (hs : Reach N k env s) (heof : s.atEOF = true) :
    s.acc = joinUpTo pay N := by
  have hb := invB_reach N k env pay henv s hs
  exact hb.atEnd (hb.eofCursor heof)

/-- Witness for C3: the concrete schedule evsAB reaches end of stream with
output [65, 66], the payload concatenation. -/
theorem stream_reassembles_in_index_order_witness :
    (∀ i, i < 2 → envAB i = Resp.resp 206 (payAB i) true) ∧ sAB.atEOF = true ∧
      sAB.acc = joinUpTo payAB 2 := by
  have h1 : ∀ i, i < 2 → envAB i = Resp.resp 206 (payAB i) true := by decide
  have hrun : run 2 1 envAB St.start evsAB = some sAB :=
    isSome_eq_some _ _ (by decide)
  have hreach := run_reach 2 1 envAB evsAB St.start sAB Reach.start hrun
  have heof : sAB.atEOF = true := by decide
  exact ⟨h1, heof, stream_reassembles_in_index_order 2 1 envAB payAB h1 sAB hreach heof⟩

/-- C4 counterexample: Content-Length "-5" cannot be parsed as a non-negative
integer, yet strconv.ParseInt parses it as -5, and Open succeeds, returning a
downloader with zero chunks instead of a format error. -/
theorem negative_content_length_accepted :
    parseInt64 ("-5") = some (-5) ∧
      openRun 10 (ProbeResp.resp 200 [] ("-5") []) = .ok ([], []) :=
  ⟨rfl, rfl⟩

/-- C4 (amended): Open fails with the status error carrying the probe's status
code and body whenever the status is not 200, before building any chunk; it
fails with the format error exactly when the Content-Length header is not a
valid signed 64-bit integer; otherwise -- including for negative parsed
lengths, which yield a downloader with no chunks -- it returns the partition
and the probe response's headers.  A transport failure of the probe is
returned as such. -/
theorem open_probe_contract (S : Int) (st : Nat) (body : List Byte) (cl : String)
    (hd : Headers) :
    (st ≠ 200 → openRun S (.resp st body cl hd) = .error (.status st body)) ∧
    (st = 200 → parseInt64 cl = none → openRun S (.resp st body cl hd) = .error .parseLen) ∧
    (∀ L, st = 200 → parseInt64 cl = some L →
      openRun S (.resp st body cl hd) = .ok (buildRanges S L, hd) ∧
        (L ≤ 0 → buildRanges S L = [])) ∧
    openRun S ProbeResp.fail = .error .transport := by
  refine ⟨?_, ?_, ?_, rfl⟩
  · intro hne
    simp [openRun, hne]
  · intro h200 hparse
    subst h200
    simp [openRun, hparse]
  · intro L h200 hparse
    subst h200
    refine ⟨by simp [openRun, hparse], ?_⟩
    intro hL
    show buildRangesAux S L (L.toNat + 1) 0 = []
    unfold buildRangesAux
    rw [if_neg (by omega)]

/-- Witness for the amended C4: a 403 probe status yields the status error
carrying 403 and the body. -/
theorem open_probe_contract_witness :
    (403 ≠ 200) ∧
      openRun 10 (ProbeResp.resp 403 [] ("7") []) = .error (.status 403 []) :=
  ⟨by decide, (open_probe_contract 10 403 [] ("7") []).1 (by decide)⟩

/-- C5: lazy one-shot start.  In every reachable state the number of worker
goroutines ever spawned is the concurrency constant if the once has fired and
zero otherwise -- the first Read starts exactly that many and later Reads
start none -- and before the first Read nothing has happened: no chunk was
handed to a worker, every worker slot is untouched, and every chunk is in its
freshly created state (no network activity for chunk bodies). -/
theorem lazy_start_spawns_pool_once (N k : Nat) (env : Nat → Resp) (s : St)
    (hs : Reach N k env s) :
    s.spawned = (if s.started then k else 0) ∧
      (s.started = false → s.feeder = 0 ∧ (∀ w, s.ws w = .waiting) ∧
        ∀ j, s.cs j = CSt.start) := by
  have h := invA_reach N k env s hs
  exact ⟨h.spawnOnce, fun hst => ⟨h.preFeeder hst, h.preWs hst, h.preCs hst⟩⟩

/-- Witness for C5 at the concrete state sAB, where three Reads have occurred
and exactly one worker was ever spawned. -/
theorem lazy_start_spawns_pool_once_witness :
    sAB.spawned = (if sAB.started then 1 else 0) := by
  have hrun : run 2 1 envAB St.start evsAB = some sAB :=
    isSome_eq_some _ _ (by decide)
  exact (lazy_start_spawns_pool_once 2 1 envAB sAB
    (run_reach 2 1 envAB evsAB St.start sAB Reach.start hrun)).1

/-- C6: the completion signal fires exactly once on every path.  In every
reachable state no chunk's done channel has been closed more than once, and
whenever a worker is inside a chunk's Download, the download's completion step
-- for every possible outcome env of the range request, success or any
failure -- leaves the chunk with done fired and its close count exactly 1. -/
theorem completion_signal_fires_once (N k : Nat) (env : Nat → Resp) (s : St)
    (hs : Reach N k env s) :
    (∀ j, s.closes j ≤ 1) ∧
      (∀ w i, s.ws w = .downloading i →
        (step N k env s (.finish w)).map (fun s2 => ((s2.cs i).done, s2.closes i)) =
          some (true, 1)) := by
  have h := invA_reach N k env s hs
  constructor
  · intro j
    rw [h.closesDone j]
    split <;> omega
  · intro w i hww
    obtain ⟨hif, hdone⟩ := h.dlBoundA w i hww
    have hst : s.started = true := by
      cases hb : s.started
      · rw [h.preWs hb w] at hww
        cases hww
      · rfl
    have hwk : w < k := by
      by_contra hge
      push_neg at hge
      rw [h.highWs w hge] at hww
      cases hww
    have hbuf : (s.cs i).buf = some [] := h.pendingBuf i hdone
    have hstep : step N k env s (.finish w) = some { s with
        cs := upd s.cs i ⟨true, some ([] ++ (downloadRun (env i)).2), (s.cs i).cerr⟩
        closes := upd s.closes i (s.closes i + 1)
        ws := upd s.ws w (match (downloadRun (env i)).1 with
          | some e2 => .recording i e2
          | none => .waitToken) } := by
      simp only [step]
      rw [if_pos ⟨hst, hwk⟩, hww]
      simp only [hbuf]
    rw [hstep]
    have hcz : s.closes i = 0 := by
      rw [h.closesDone i, hdone]
      rfl
    simp [upd_self, hcz]

/-- Witness for C6 at the concrete state sC6, where worker 0 is downloading
chunk 0. -/
theorem completion_signal_fires_once_witness :
    sC6.ws 0 = WSt.downloading 0 ∧
      (step 2 1 envAB sC6 (.finish 0)).map (fun s2 => ((s2.cs 0).done, s2.closes 0)) =
        some (true, 1) := by
  have hrun : run 2 1 envAB St.start evsC6 = some sC6 :=
    isSome_eq_some _ _ (by decide)
  have hreach := run_reach 2 1 envAB evsC6 St.start sC6 Reach.start hrun
  have hw : sC6.ws 0 = WSt.downloading 0 := by decide
  exact ⟨hw, (completion_signal_fires_once 2 1 envAB sC6 hreach).2 0 0 hw⟩

/-- C7: backpressure bound.  In every reachable state the number of chunks
ever claimed from the work queue is at most the concurrency constant plus the
number of chunks the consumer has fully drained (each drain releases one
readAhead slot); in particular, while the consumer has drained nothing, at
most k chunks are ever claimed into in-flight-or-buffered state. -/
theorem backpressure_claim_bound (N k : Nat) (env : Nat → Resp) (s : St)
    (hs : Reach N k env s) :
    s.feeder ≤ k + s.produced ∧ (s.produced = 0 → s.feeder ≤ k) := by
  have h := invA_reach N k env s hs
  have hb := h.balance
  have hc := countBusy_le s.ws k
  omega

/-- Witness for C7 at the concrete state sC6: one chunk claimed, nothing
drained, concurrency 1. -/
theorem backpressure_claim_bound_witness :
    sC6.feeder ≤ 1 + sC6.produced ∧ (sC6.produced = 0 → sC6.feeder ≤ 1) := by
  have hrun : run 2 1 envAB St.start evsC6 = some sC6 :=
    isSome_eq_some _ _ (by decide)
  exact backpressure_claim_bound 2 1 envAB sC6
    (run_reach 2 1 envAB evsC6 St.start sC6 Reach.start hrun)

/-- C8: the claim says each worker exits cleanly once the queue is exhausted.
The feeder goroutine never closes d.chunks, so after the single chunk of this
run is downloaded, drained and the stream is at end-of-file, the worker sits
at the receive again: its claim step is blocked (no chunk left), and the exit
from the range loop -- which requires the channel to be closed -- is blocked
forever because closed is still false.  The worker routine never terminates. -/
theorem workers_never_exit :
    (run 1 1 envAB St.start evsEnd).isSome = true ∧
      sEnd.feeder = 1 ∧ sEnd.atEOF = true ∧ sEnd.ws 0 = WSt.waiting ∧
      sEnd.closed = false ∧
      (step 1 1 envAB sEnd (.claim 0)).isNone = true ∧
      (step 1 1 envAB sEnd (.exit 0)).isNone = true := by
  decide

/-- C9: the claim says a consumed chunk's further reads return end-of-data.
After the bytes of a downloaded chunk are drained, the next Read returns
(0, io.EOF), sends the readAhead token and sets c.buf = nil; the call after
that then invokes Read on the nil *bytes.Buffer, a nil-pointer dereference
panic, not an end-of-data result. -/
theorem consumed_chunk_reread_panics :
    chunkRead ⟨true, some [65], none⟩ 8 = (.bytes [65], ⟨true, some [], none⟩, false) ∧
      chunkRead ⟨true, some [], none⟩ 8 = (.eof, ⟨true, none, none⟩, true) ∧
      (chunkRead ⟨true, none, none⟩ 8).1 = .panicked ∧
      (chunkRead ⟨true, none, none⟩ 8).1 ≠ .eof := by
  decide

/-- C10: WriteTo never returns on normal stream exhaustion.  Once every chunk
has been drained, each downloader.Read call returns (0, io.EOF) -- the
exhaustedRead function -- and the WriteTo loop never exits: the read error is
io.EOF so the first return is skipped, the empty write returns (0, nil) so the
second return is skipped, and the loop repeats, for every iteration bound. -/
theorem writeTo_never_returns_after_eof (write : Nat → Nat × Option IoErr)
    (hw : write 0 = (0, none)) :
    ∀ fuel i n, writeToRun exhaustedRead write fuel i n = none := by
  intro fuel
  induction fuel with
  | zero => intro i n; rfl
  | succ m ih =>
    intro i n
    simp only [writeToRun, exhaustedRead, hw]
    simp
    exact ih (i + 1) n

/-- Witness for C10 with the sink okWrite and iteration bound 5. -/
theorem writeTo_never_returns_after_eof_witness :
    okWrite 0 = (0, none) ∧ writeToRun exhaustedRead okWrite 5 0 0 = none :=
  ⟨rfl, writeTo_never_returns_after_eof okWrite rfl 5 0 0⟩

end S3
